import Mathlib

/-!
Verification of the `base58check` Python package (Base58 / Base58Check codec).

The definitions below are a shallow embedding of `base58check/__init__.py`:
byte strings are `List Nat` (each element a byte value), Python exceptions
become an explicit `Except B58Error` result, and the unbounded `while` loops
over big integers become fuel-indexed structural recursions (the fuel is
always taken to be the loop's integer argument, which strictly decreases by a
division each iteration, so the fuel is never exhausted).
-/

namespace Base58Check

/-- Error taxonomy of the library.
`configError` is the `ValueError` raised for a charset whose length is not 58
(and for the `ValueError` raised by `bytes.fromhex` on a version whose hex
rendering has odd length); `invalidSymbol` is the `ValueError` raised by
`charset.index` when a symbol is not in the charset; `incorrectAddress` is the
library's `IncorrectAddress` exception. -/
inductive B58Error where
  | configError
  | invalidSymbol
  | incorrectAddress
  deriving DecidableEq, Repr

/-- `DEFAULT_CHARSET = b'123456789ABCDEFGHJKLMNPQRSTUVWXYZabcdefghijkmnopqrstuvwxyz'`
as its list of byte values. -/
def DEFAULT_CHARSET : List Nat :=
  [49, 50, 51, 52, 53, 54, 55, 56, 57,
   65, 66, 67, 68, 69, 70, 71, 72,
   74, 75, 76, 77, 78,
   80, 81, 82, 83, 84, 85, 86, 87, 88, 89, 90,
   97, 98, 99, 100, 101, 102, 103, 104, 105, 106, 107,
   109, 110, 111, 112, 113, 114, 115, 116, 117, 118, 119, 120, 121, 122]

/-- The accumulation loop of `b58encode`:
`for char in deque(reversed(val)): acc += p * char; p = p << 8`.
The argument list is the already-reversed input. -/
def bytesToNatLoop : List Nat → Nat → Nat → Nat
  | [], _, acc => acc
  | ch :: rest, p, acc => bytesToNatLoop rest (p <<< 8) (acc + p * ch)

/-- The big-endian integer value of a byte string, as computed by `b58encode`. -/
def bytesToNat (val : List Nat) : Nat :=
  bytesToNatLoop val.reverse 1 0

/-- The `while int_:` loop of `_b58encode_int`:
`int_, idx = divmod(int_, base); output = charset[idx:idx+1] + output`,
with `base = len(charset)`.  Fuel-indexed; `fuel ≥ int_` suffices. -/
def b58encode_intLoop (charset : List Nat) : Nat → Nat → List Nat
  | 0, _ => []
  | fuel + 1, n =>
    if n = 0 then []
    else b58encode_intLoop charset fuel (n / charset.length) ++
      ((charset.drop (n % charset.length)).take 1)

/-- `_b58encode_int(int_, default)`.  The Python `default` is either `False`
(embedded as `none`) or a byte string returned when `int_` is zero. -/
def b58encode_int (charset : List Nat) (n : Nat) (default : Option (List Nat)) :
    List Nat :=
  match default with
  | some d => if n = 0 then d else b58encode_intLoop charset n n
  | none => b58encode_intLoop charset n n

/-- `b58encode(val, charset)`.  The Python function first checks
`len(charset) == 58`, strips leading zero bytes, folds the rest into a big
integer and renders it with `_b58encode_int(acc, default=False)`, prefixing
one `charset[0]` per stripped zero byte. -/
def b58encode (val : List Nat) (charset : List Nat) : Except B58Error (List Nat) :=
  if charset.length = 58 then
    let stripped := val.dropWhile (fun b => b == 0)
    let padLen := val.length - stripped.length
    let acc := bytesToNat stripped
    .ok (List.replicate padLen (charset.headD 0) ++ b58encode_int charset acc none)
  else .error .configError

/-- Python's `charset.index(ch)` returning `none` instead of raising
`ValueError` when `ch` does not occur: the index of the first occurrence. -/
def charsetIndex (charset : List Nat) (ch : Nat) : Option Nat :=
  match charset with
  | [] => none
  | x :: xs => if x = ch then some 0 else (charsetIndex xs ch).map (· + 1)

/-- The loop of `_b58decode_int`:
`output = output * base + charset.index(char)` with `base = len(charset)`. -/
def b58decode_intLoop (charset : List Nat) : List Nat → Nat → Except B58Error Nat
  | [], output => .ok output
  | ch :: rest, output =>
    match charsetIndex charset ch with
    | none => .error .invalidSymbol
    | some i => b58decode_intLoop charset rest (output * charset.length + i)

/-- `_b58decode_int(val)` inside `b58decode`. -/
def b58decode_int (charset val : List Nat) : Except B58Error Nat :=
  b58decode_intLoop charset val 0

/-- The `while acc > 0: acc, mod = divmod(acc, 256); result.appendleft(mod)`
loop of `b58decode`: minimal big-endian bytes of `acc`.  Fuel-indexed;
`fuel ≥ acc` suffices. -/
def natToBytes256 : Nat → Nat → List Nat
  | 0, _ => []
  | fuel + 1, acc =>
    if acc = 0 then []
    else natToBytes256 fuel (acc / 256) ++ [acc % 256]

/-- `b58decode(val, charset)`: check `len(charset) == 58`, strip leading
`charset[0]` symbols, fold the rest into a big integer (failing with
`invalidSymbol` on a foreign symbol), render it in base 256 and prefix one
zero byte per stripped symbol. -/
def b58decode (val : List Nat) (charset : List Nat) : Except B58Error (List Nat) :=
  if charset.length = 58 then
    let stripped := val.dropWhile (fun b => b == charset.headD 0)
    let padLen := val.length - stripped.length
    match b58decode_int charset stripped with
    | .error e => .error e
    | .ok acc => .ok (List.replicate padLen 0 ++ natToBytes256 acc acc)
  else .error .configError

/-! ## SHA-256

`hashlib.sha256` as used by the Base58Check layer, implemented directly from
FIPS 180-4 over byte lists, with 32-bit words as `Nat` reduced `% 2 ^ 32`. -/

/-- Right rotation of a 32-bit word. -/
def rotr (n x : Nat) : Nat := ((x >>> n) ||| (x <<< (32 - n))) % 4294967296

/-- Small sigma 0. -/
def ssig0 (x : Nat) : Nat := (rotr 7 x) ^^^ (rotr 18 x) ^^^ (x >>> 3)

/-- Small sigma 1. -/
def ssig1 (x : Nat) : Nat := (rotr 17 x) ^^^ (rotr 19 x) ^^^ (x >>> 10)

/-- Big sigma 0. -/
def bsig0 (x : Nat) : Nat := (rotr 2 x) ^^^ (rotr 13 x) ^^^ (rotr 22 x)

/-- Big sigma 1. -/
def bsig1 (x : Nat) : Nat := (rotr 6 x) ^^^ (rotr 11 x) ^^^ (rotr 25 x)

/-- The 64 SHA-256 round constants. -/
def shaK : List Nat :=
  [1116352408, 1899447441, 3049323471, 3921009573, 961987163, 1508970993,
   2453635748, 2870763221, 3624381080, 310598401, 607225278, 1426881987,
   1925078388, 2162078206, 2614888103, 3248222580, 3835390401, 4022224774,
   264347078, 604807628, 770255983, 1249150122, 1555081692, 1996064986,
   2554220882, 2821834349, 2952996808, 3210313671, 3336571891, 3584528711,
   113926993, 338241895, 666307205, 773529912, 1294757372, 1396182291,
   1695183700, 1986661051, 2177026350, 2456956037, 2730485921, 2820302411,
   3259730800, 3345764771, 3516065817, 3600352804, 4094571909, 275423344,
   430227734, 506948616, 659060556, 883997877, 958139571, 1322822218,
   1537002063, 1747873779, 1955562222, 2024104815, 2227730452, 2361852424,
   2428436474, 2756734187, 3204031479, 3329325298]

/-- The SHA-256 initial hash state. -/
def shaInitState : List Nat :=
  [1779033703, 3144134277, 1013904242, 2773480762,
   1359893119, 2600822924, 528734635, 1541459225]

/-- Group bytes into big-endian 32-bit words. -/
def bytesToWords : List Nat → List Nat
  | a :: b :: c :: d :: rest =>
    (a * 16777216 + b * 65536 + c * 256 + d) :: bytesToWords rest
  | _ => []

/-- Extend a 16-word block to the 64-word message schedule (48 steps). -/
def extendSchedule : Nat → List Nat → List Nat
  | 0, w => w
  | n + 1, w =>
    let t := w.length
    extendSchedule n (w ++
      [(ssig1 (w.getD (t - 2) 0) + w.getD (t - 7) 0 +
        ssig0 (w.getD (t - 15) 0) + w.getD (t - 16) 0) % 4294967296])

/-- One SHA-256 round on the 8-word working state. -/
def shaRound (st : List Nat) (kw : Nat × Nat) : List Nat :=
  match st with
  | [a, b, c, d, e, f, g, h] =>
    let s1 := bsig1 e
    let ch := (e &&& f) ^^^ ((4294967295 ^^^ e) &&& g)
    let temp1 := (h + s1 + ch + kw.1 + kw.2) % 4294967296
    let s0 := bsig0 a
    let maj := (a &&& b) ^^^ (a &&& c) ^^^ (b &&& c)
    let temp2 := (s0 + maj) % 4294967296
    [(temp1 + temp2) % 4294967296, a, b, c, (d + temp1) % 4294967296, e, f, g]
  | _ => st

/-- Compress one 16-word block into the hash state. -/
def shaCompress (h : List Nat) (block : List Nat) : List Nat :=
  let w := extendSchedule 48 block
  let s := (shaK.zip w).foldl shaRound h
  List.zipWith (fun a b => (a + b) % 4294967296) h s

/-- Process a word stream block by block (16 words at a time). -/
def processBlocks (h : List Nat) : List Nat → List Nat
  | w0 :: w1 :: w2 :: w3 :: w4 :: w5 :: w6 :: w7 ::
    w8 :: w9 :: w10 :: w11 :: w12 :: w13 :: w14 :: w15 :: rest =>
    processBlocks (shaCompress h
      [w0, w1, w2, w3, w4, w5, w6, w7, w8, w9, w10, w11, w12, w13, w14, w15]) rest
  | _ => h

/-- Serialize 32-bit words as big-endian bytes. -/
def wordsToBytes (ws : List Nat) : List Nat :=
  ws.flatMap (fun w => [w / 16777216 % 256, w / 65536 % 256, w / 256 % 256, w % 256])

/-- SHA-256 padding: append `128`, zero bytes to 56 mod 64, then the bit
length as 8 big-endian bytes. -/
def shaPad (msg : List Nat) : List Nat :=
  let L := msg.length
  let bl := 8 * L
  msg ++ 128 :: List.replicate ((119 - L % 64) % 64) 0 ++
    [bl / 72057594037927936 % 256, bl / 281474976710656 % 256,
     bl / 1099511627776 % 256, bl / 4294967296 % 256,
     bl / 16777216 % 256, bl / 65536 % 256, bl / 256 % 256, bl % 256]

/-- `hashlib.sha256(msg).digest()` as a 32-byte list. -/
def sha256 (msg : List Nat) : List Nat :=
  wordsToBytes (processBlocks shaInitState (bytesToWords (shaPad msg)))

/-! ## Base58Check layer -/

/-- The number of digits of `hex(v)` (without the `0x` prefix).
Fuel-indexed; `fuel ≥ v` suffices. -/
def hexLenAux : Nat → Nat → Nat
  | 0, _ => 1
  | fuel + 1, v => if v < 16 then 1 else hexLenAux fuel (v / 16) + 1

/-- The version-byte computation of `b58check_encode`:
`v_addr = hex(address_version).removeprefix('0x')`, left-pad with `'0'` if a
single digit, then `bytes.fromhex(v_addr)`.  `bytes.fromhex` raises
`ValueError` on an odd-length string (`none` here); on an even-length string
of `2k` hex digits it yields the big-endian value in exactly `k` bytes. -/
def versionBytes (v : Nat) : Option (List Nat) :=
  let hl := hexLenAux v v
  let hl := if hl = 1 then hl + 1 else hl
  if hl % 2 = 0 then
    some (List.replicate (hl / 2 - (natToBytes256 v v).length) 0 ++ natToBytes256 v v)
  else none

/-- `b58check_encode(val, address_version, charset)`:
`chk_sum = sha256(sha256(v_addr + val).digest()).digest()[:4]`, then
`b58encode(v_addr + val + chk_sum, charset=charset)`. -/
def b58check_encode (val : List Nat) (address_version : Nat)
    (charset : List Nat) : Except B58Error (List Nat) :=
  match versionBytes address_version with
  | none => .error .configError
  | some v_addr =>
    let chk_sum := (sha256 (sha256 (v_addr ++ val))).take 4
    b58encode (v_addr ++ val ++ chk_sum) charset

/-- `b58check_address_is_valid(val, charset)`: decode (propagating decode
errors), compare `raw[-4:]` with `sha256(sha256(raw[:-4]))[:4]`.  Python's
negative slices are `drop (len - 4)` and `take (len - 4)` with truncated
subtraction, which agrees with Python for `len < 4` as well. -/
def b58check_address_is_valid (val : List Nat) (charset : List Nat) :
    Except B58Error Bool :=
  match b58decode val charset with
  | .error e => .error e
  | .ok raw =>
    let expected := raw.drop (raw.length - 4)
    let actual := (sha256 (sha256 (raw.take (raw.length - 4)))).take 4
    if expected = actual then .ok true else .ok false

/-- `b58check_decode(val, charset)`: raise `IncorrectAddress` when the
address is invalid, else return `b58decode(val)[1:-4]`. -/
def b58check_decode (val : List Nat) (charset : List Nat) :
    Except B58Error (List Nat) :=
  match b58check_address_is_valid val charset with
  | .error e => .error e
  | .ok false => .error .incorrectAddress
  | .ok true =>
    match b58decode val charset with
    | .error e => .error e
    | .ok raw => .ok ((raw.take (raw.length - 4)).drop 1)

/-! ## Helper lemmas -/

/-- A one-element Python slice `charset[i:i+1]` is `[charset[i]]` when `i` is
in range. -/
theorem slice_one : ∀ {c : List Nat} {i : Nat}, i < c.length →
    (c.drop i).take 1 = [c.getD i 0]
  | x :: _, 0, _ => by simp
  | _ :: xs, i + 1, h => by
    rw [List.drop_succ_cons, List.getD_cons_succ]
    exact slice_one (by simpa using h)

/-- The encoder's division loop produces the big-endian base-`len` digits,
rendered through the charset, whenever the fuel is at least the argument. -/
theorem b58encode_intLoop_eq_digits {c : List Nat} (hc : 1 < c.length) :
    ∀ fuel n, n ≤ fuel →
    b58encode_intLoop c fuel n =
      (Nat.digits c.length n).reverse.map (fun d => c.getD d 0) := by
  intro fuel
  induction fuel with
  | zero =>
    intro n hn
    obtain rfl : n = 0 := Nat.le_zero.mp hn
    simp [b58encode_intLoop]
  | succ f ih =>
    intro n hn
    by_cases h0 : n = 0
    · subst h0; simp [b58encode_intLoop]
    · rw [b58encode_intLoop, if_neg h0]
      have hdiv : n / c.length ≤ f := by
        have := Nat.div_lt_self (Nat.pos_of_ne_zero h0) hc
        omega
      rw [ih _ hdiv, Nat.digits_def' hc (Nat.pos_of_ne_zero h0)]
      rw [List.reverse_cons, List.map_append,
        slice_one (Nat.mod_lt n (by omega))]
      simp

/-- The decoder's division loop produces the minimal big-endian base-256
bytes, whenever the fuel is at least the argument. -/
theorem natToBytes256_eq_digits :
    ∀ fuel n, n ≤ fuel → natToBytes256 fuel n = (Nat.digits 256 n).reverse := by
  intro fuel
  induction fuel with
  | zero =>
    intro n hn
    obtain rfl : n = 0 := Nat.le_zero.mp hn
    simp [natToBytes256]
  | succ f ih =>
    intro n hn
    by_cases h0 : n = 0
    · subst h0; simp [natToBytes256]
    · rw [natToBytes256, if_neg h0]
      have hdiv : n / 256 ≤ f := by
        have hlt : n / 256 < n :=
          Nat.div_lt_self (Nat.pos_of_ne_zero h0) (by norm_num)
        omega
      rw [ih _ hdiv,
        Nat.digits_def' (show (1 : Nat) < 256 by norm_num) (Nat.pos_of_ne_zero h0)]
      simp

/-- The byte-accumulation loop of `b58encode` computes
`acc + p * ofDigits 256 l` over the (little-endian) list `l`. -/
theorem bytesToNatLoop_eq : ∀ (l : List Nat) (p acc : Nat),
    bytesToNatLoop l p acc = acc + p * Nat.ofDigits 256 l
  | [], p, acc => by simp [bytesToNatLoop]
  | ch :: rest, p, acc => by
    rw [bytesToNatLoop, bytesToNatLoop_eq rest, Nat.ofDigits_cons,
      Nat.shiftLeft_eq]
    ring

/-- `bytesToNat` is the big-endian base-256 value of the byte string. -/
theorem bytesToNat_eq (val : List Nat) :
    bytesToNat val = Nat.ofDigits 256 val.reverse := by
  rw [bytesToNat, bytesToNatLoop_eq]
  ring

/-- `charsetIndex` finds nothing exactly when the symbol is absent. -/
theorem charsetIndex_eq_none_iff {c : List Nat} {ch : Nat} :
    charsetIndex c ch = none ↔ ch ∉ c := by
  induction c with
  | nil => simp [charsetIndex]
  | cons x xs ih =>
    by_cases hx : x = ch
    · subst hx; simp [charsetIndex]
    · simp [charsetIndex, hx, Option.map_eq_none', ih, Ne.symm hx]

/-- A found index is in range. -/
theorem charsetIndex_lt {c : List Nat} {ch i : Nat}
    (h : charsetIndex c ch = some i) : i < c.length := by
  induction c generalizing i with
  | nil => simp [charsetIndex] at h
  | cons x xs ih =>
    rw [charsetIndex] at h
    by_cases hx : x = ch
    · rw [if_pos hx] at h
      obtain rfl : (0 : Nat) = i := Option.some.inj h
      simp
    · rw [if_neg hx, Option.map_eq_some'] at h
      obtain ⟨j, hj, rfl⟩ := h
      have := ih hj
      simp only [List.length_cons]
      omega

/-- A found index points back at the symbol. -/
theorem charsetIndex_getD {c : List Nat} {ch i : Nat}
    (h : charsetIndex c ch = some i) : c.getD i 0 = ch := by
  induction c generalizing i with
  | nil => simp [charsetIndex] at h
  | cons x xs ih =>
    by_cases hx : x = ch
    · simp [charsetIndex, hx] at h
      subst h; simpa using hx
    · rw [charsetIndex, if_neg hx, Option.map_eq_some'] at h
      obtain ⟨j, hj, rfl⟩ := h
      simpa using ih hj

/-- On a duplicate-free charset, looking up the symbol at position `i`
returns `i`. -/
theorem charsetIndex_of_nodup {c : List Nat} (hnd : c.Nodup) :
    ∀ {i : Nat}, i < c.length → charsetIndex c (c.getD i 0) = some i := by
  induction c with
  | nil => intro i h; simp at h
  | cons x xs ih =>
    intro i h
    match i with
    | 0 => simp [charsetIndex]
    | j + 1 =>
      have hj : j < xs.length := by simpa using h
      have hmem : xs.getD j 0 ∈ xs := by
        rw [List.getD_eq_getElem xs 0 hj]
        exact List.getElem_mem hj
      have hx : x ≠ xs.getD j 0 := by
        intro hcontra
        exact (List.nodup_cons.mp hnd).1 (hcontra ▸ hmem)
      rw [List.getD_cons_succ, charsetIndex, if_neg hx,
        ih (List.nodup_cons.mp hnd).2 hj]
      rfl

/-- Folding big-endian digits base `b` with the decode recurrence computes
`acc * b ^ len + ofDigits b l` over the little-endian list `l`. -/
theorem foldl_reverse_ofDigits (b : Nat) :
    ∀ (l : List Nat) (acc : Nat),
      l.reverse.foldl (fun a d => a * b + d) acc =
        acc * b ^ l.length + Nat.ofDigits b l
  | [], acc => by simp
  | d :: l, acc => by
    rw [List.reverse_cons, List.foldl_append, foldl_reverse_ofDigits b l acc,
      Nat.ofDigits_cons, List.length_cons]
    simp only [List.foldl_cons, List.foldl_nil]
    ring

/-- The decode loop over symbols drawn from a duplicate-free charset folds
their indices in base `len(charset)`. -/
theorem b58decode_intLoop_map {c : List Nat} (hnd : c.Nodup) :
    ∀ (ds : List Nat), (∀ d ∈ ds, d < c.length) → ∀ acc,
      b58decode_intLoop c (ds.map (fun d => c.getD d 0)) acc =
        .ok (ds.foldl (fun a d => a * c.length + d) acc)
  | [], _, acc => rfl
  | d :: ds, hds, acc => by
    have hidx := charsetIndex_of_nodup hnd (hds d (List.mem_cons_self d ds))
    simp only [List.map_cons, b58decode_intLoop, hidx, List.foldl_cons]
    exact b58decode_intLoop_map hnd ds
      (fun x hx => hds x (List.mem_cons_of_mem d hx)) _

/-- The decode loop fails with `invalidSymbol` when some symbol is not in the
charset. -/
theorem b58decode_intLoop_err {c : List Nat} :
    ∀ {l : List Nat}, (∃ ch ∈ l, ch ∉ c) → ∀ acc,
      b58decode_intLoop c l acc = .error .invalidSymbol := by
  intro l
  induction l with
  | nil => intro h acc; simp at h
  | cons x xs ih =>
    intro h acc
    by_cases hx : x ∈ c
    · have hxs : ∃ ch ∈ xs, ch ∉ c := by
        obtain ⟨ch, hch, hnc⟩ := h
        rcases List.mem_cons.mp hch with rfl | hm
        · exact absurd hx hnc
        · exact ⟨ch, hm, hnc⟩
      cases hidx : charsetIndex c x with
      | none => simp only [b58decode_intLoop, hidx]
      | some i =>
        simp only [b58decode_intLoop, hidx]
        exact ih hxs _
    · have hn : charsetIndex c x = none := charsetIndex_eq_none_iff.mpr hx
      simp only [b58decode_intLoop, hn]

/-- `shaRound` preserves list length. -/
theorem shaRound_length (st : List Nat) (kw : Nat × Nat) :
    (shaRound st kw).length = st.length := by
  unfold shaRound
  split
  · simp
  · rfl

/-- Folding `shaRound` preserves list length. -/
theorem foldl_shaRound_length (l : List (Nat × Nat)) (st : List Nat) :
    (l.foldl shaRound st).length = st.length := by
  induction l generalizing st with
  | nil => rfl
  | cons kw l ih => rw [List.foldl_cons, ih, shaRound_length]

/-- `shaCompress` yields an 8-word state. -/
theorem shaCompress_length {h : List Nat} (hl : h.length = 8) (block : List Nat) :
    (shaCompress h block).length = 8 := by
  unfold shaCompress
  rw [List.length_zipWith, foldl_shaRound_length, hl]
  simp

/-- `processBlocks` yields an 8-word state. -/
theorem processBlocks_length : ∀ (ws hst : List Nat), hst.length = 8 →
    (processBlocks hst ws).length = 8
  | w0 :: w1 :: w2 :: w3 :: w4 :: w5 :: w6 :: w7 ::
    w8 :: w9 :: w10 :: w11 :: w12 :: w13 :: w14 :: w15 :: rest, hst, hl => by
    rw [processBlocks]
    exact processBlocks_length rest _ (shaCompress_length hl _)
  | [], _, hl => hl
  | [w0], _, hl => hl
  | [w0, w1], _, hl => hl
  | [w0, w1, w2], _, hl => hl
  | [w0, w1, w2, w3], _, hl => hl
  | [w0, w1, w2, w3, w4], _, hl => hl
  | [w0, w1, w2, w3, w4, w5], _, hl => hl
  | [w0, w1, w2, w3, w4, w5, w6], _, hl => hl
  | [w0, w1, w2, w3, w4, w5, w6, w7], _, hl => hl
  | [w0, w1, w2, w3, w4, w5, w6, w7, w8], _, hl => hl
  | [w0, w1, w2, w3, w4, w5, w6, w7, w8, w9], _, hl => hl
  | [w0, w1, w2, w3, w4, w5, w6, w7, w8, w9, w10], _, hl => hl
  | [w0, w1, w2, w3, w4, w5, w6, w7, w8, w9, w10, w11], _, hl => hl
  | [w0, w1, w2, w3, w4, w5, w6, w7, w8, w9, w10, w11, w12], _, hl => hl
  | [w0, w1, w2, w3, w4, w5, w6, w7, w8, w9, w10, w11, w12, w13], _, hl => hl
  | [w0, w1, w2, w3, w4, w5, w6, w7, w8, w9, w10, w11, w12, w13, w14], _, hl => hl

/-- `wordsToBytes` yields 4 bytes per word. -/
theorem wordsToBytes_length : ∀ ws : List Nat,
    (wordsToBytes ws).length = 4 * ws.length
  | [] => rfl
  | w :: ws => by
    have ih := wordsToBytes_length ws
    rw [wordsToBytes] at ih ⊢
    rw [List.flatMap_cons, List.length_append, ih]
    simp only [List.length_cons, List.length_nil]
    omega

/-- A SHA-256 digest is 32 bytes long. -/
theorem sha256_length (msg : List Nat) : (sha256 msg).length = 32 := by
  rw [sha256, wordsToBytes_length,
    processBlocks_length (bytesToWords (shaPad msg)) shaInitState rfl]

/-- Every byte of a SHA-256 digest is below 256. -/
theorem sha256_lt {msg : List Nat} : ∀ b ∈ sha256 msg, b < 256 := by
  intro b hb
  rw [sha256, wordsToBytes, List.mem_flatMap] at hb
  obtain ⟨w, -, hw⟩ := hb
  simp only [List.mem_cons, List.not_mem_nil, or_false] at hw
  rcases hw with rfl | rfl | rfl | rfl <;> exact Nat.mod_lt _ (by norm_num)

set_option maxRecDepth 4000 in
/-- For a version in `[0, 255]`, `b58check_encode` renders it as exactly the
single byte equal to the version. -/
theorem versionBytes_small : ∀ v < 256, versionBytes v = some [v] := by decide

/-- Stripping a replicated prefix of matching symbols. -/
theorem dropWhile_replicate_append (p : Nat → Bool) {a : Nat} (hp : p a = true) :
    ∀ (z : Nat) (S : List Nat),
      (List.replicate z a ++ S).dropWhile p = S.dropWhile p
  | 0, S => by simp
  | z + 1, S => by
    rw [List.replicate_succ, List.cons_append, List.dropWhile_cons_of_pos hp]
    exact dropWhile_replicate_append p hp z S

/-- The head of `dropWhile` does not satisfy the predicate. -/
theorem dropWhile_head_not {p : Nat → Bool} :
    ∀ {l : List Nat} {x : Nat} {xs : List Nat},
      l.dropWhile p = x :: xs → p x = false := by
  intro l
  induction l with
  | nil => intro x xs h; simp at h
  | cons y ys ih =>
    intro x xs h
    rw [List.dropWhile_cons] at h
    by_cases hy : p y = true
    · rw [if_pos hy] at h
      exact ih h
    · rw [if_neg hy] at h
      injection h with h1 _
      subst h1
      exact Bool.eq_false_iff.mpr hy

/-- A list all of whose elements satisfy a predicate forcing equality with a
fixed value is a `replicate` of that value. -/
theorem takeWhile_eq_replicate {l : List Nat} {a : Nat} {p : Nat → Bool}
    (hp : ∀ x, p x = true → x = a) :
    l.takeWhile p = List.replicate (l.takeWhile p).length a :=
  List.eq_replicate_length.mpr
    (fun b hb => hp b (List.mem_takeWhile_imp hb))

/-- `headD` is `getD` at index 0. -/
theorem headD_eq_getD (c : List Nat) : c.headD 0 = c.getD 0 0 := by
  cases c <;> rfl

/-- Distinct positions of a duplicate-free charset hold distinct symbols. -/
theorem getD_ne_getD_zero {c : List Nat} (hnd : c.Nodup) {d : Nat}
    (hd : d < c.length) (hd0 : d ≠ 0) (hpos : 0 < c.length) :
    c.getD d 0 ≠ c.getD 0 0 := by
  rw [List.getD_eq_getElem c 0 hd, List.getD_eq_getElem c 0 hpos]
  intro hcontra
  exact hd0 (hnd.getElem_inj_iff.mp hcontra)

/-- Reassembling the stripped prefix: when the predicate forces equality with
`a`, the stripped copies of `a` plus the stripped tail recover the list. -/
theorem replicate_sub_append (p : Nat → Bool) (a : Nat)
    (hp : ∀ y, p y = true → y = a) (x : List Nat) :
    List.replicate (x.length - (x.dropWhile p).length) a ++ x.dropWhile p = x := by
  have hlen : (x.takeWhile p).length + (x.dropWhile p).length = x.length := by
    conv_rhs => rw [← List.takeWhile_append_dropWhile p x]
    rw [List.length_append]
  have htw : x.takeWhile p = List.replicate (x.takeWhile p).length a :=
    takeWhile_eq_replicate hp
  have hz : x.length - (x.dropWhile p).length = (x.takeWhile p).length := by omega
  rw [hz, ← htw]
  exact List.takeWhile_append_dropWhile p x

/-- Evaluation of `b58encode` under a valid charset. -/
theorem b58encode_eq_of_len {c : List Nat} (h58 : c.length = 58) (x : List Nat) :
    b58encode x c = .ok
      (List.replicate (x.length - (x.dropWhile (fun b => b == 0)).length)
        (c.headD 0) ++
       b58encode_int c (bytesToNat (x.dropWhile (fun b => b == 0))) none) := by
  rw [b58encode, if_pos h58]

/-- Evaluation of `b58decode` under a valid charset. -/
theorem b58decode_eq_of_len {c : List Nat} (h58 : c.length = 58) (v : List Nat) :
    b58decode v c =
      match b58decode_int c (v.dropWhile (fun b => b == c.headD 0)) with
      | .error e => .error e
      | .ok acc => .ok
          (List.replicate
            (v.length - (v.dropWhile (fun b => b == c.headD 0)).length) 0 ++
           natToBytes256 acc acc) := by
  rw [b58decode, if_pos h58]

/-- Round-trip core: decoding `z` leading zero symbols followed by the
encoding of a byte string with no leading zero byte recovers `z` zero bytes
followed by that byte string. -/
theorem decode_replicate_encode {c : List Nat} (h58 : c.length = 58)
    (hnd : c.Nodup) (z : Nat) (str : List Nat)
    (hstb : ∀ b ∈ str, b < 256) (hhead : str.head? ≠ some 0) :
    b58decode (List.replicate z (c.headD 0) ++
        b58encode_int c (bytesToNat str) none) c =
      .ok (List.replicate z 0 ++ str) := by
  have hc1 : 1 < c.length := by omega
  have hcpos : 0 < c.length := by omega
  rcases str with _ | ⟨s0, rest⟩
  · have hS : b58encode_int c (bytesToNat []) none = [] := rfl
    rw [hS, List.append_nil, b58decode_eq_of_len h58]
    have hdw : (List.replicate z (c.headD 0)).dropWhile
        (fun b => b == c.headD 0) = [] := by
      have h := dropWhile_replicate_append
        (fun b => b == c.headD 0) (beq_self_eq_true (c.headD 0)) z []
      rw [List.append_nil] at h
      exact h
    rw [hdw]
    simp [b58decode_int, b58decode_intLoop, natToBytes256]
  · have hs0 : s0 ≠ 0 := by simpa using hhead
    have hacc := bytesToNat_eq (s0 :: rest)
    have hd256 : Nat.digits 256 (bytesToNat (s0 :: rest)) = (s0 :: rest).reverse := by
      rw [hacc]
      apply Nat.digits_ofDigits 256 (by norm_num)
      · intro l hl
        exact hstb l (List.mem_reverse.mp hl)
      · intro hne
        rw [List.getLast_reverse hne]
        simpa using hs0
    have haccne : bytesToNat (s0 :: rest) ≠ 0 := by
      intro h0
      rw [h0] at hd256
      simp at hd256
    have hS : b58encode_int c (bytesToNat (s0 :: rest)) none =
        (Nat.digits 58 (bytesToNat (s0 :: rest))).reverse.map
          (fun d => c.getD d 0) := by
      rw [b58encode_int, b58encode_intLoop_eq_digits hc1 _ _ (le_refl _), h58]
    obtain ⟨d0, Ds, hDrev⟩ : ∃ d0 Ds,
        (Nat.digits 58 (bytesToNat (s0 :: rest))).reverse = d0 :: Ds :=
      List.exists_cons_of_ne_nil
        (by simpa using Nat.digits_ne_nil_iff_ne_zero.mpr haccne)
    have hd0mem : d0 ∈ Nat.digits 58 (bytesToNat (s0 :: rest)) := by
      rw [← List.mem_reverse, hDrev]
      exact List.mem_cons_self _ _
    have hd0lt : d0 < 58 := Nat.digits_lt_base (by norm_num) hd0mem
    have hd0ne : d0 ≠ 0 := by
      have h1 : (Nat.digits 58 (bytesToNat (s0 :: rest))).getLast? = some d0 := by
        rw [← List.head?_reverse, hDrev, List.head?_cons]
      have h2 := Nat.getLast_digit_ne_zero 58 haccne
      rw [List.getLast?_eq_getLast _
        (Nat.digits_ne_nil_iff_ne_zero.mpr haccne)] at h1
      injection h1 with h1
      rw [← h1]
      exact h2
    have hsym0 : (c.getD d0 0 == c.headD 0) = false := by
      rw [headD_eq_getD]
      exact beq_eq_false_iff_ne.mpr
        (getD_ne_getD_zero hnd (h58 ▸ hd0lt) hd0ne hcpos)
    rw [hS, hDrev, b58decode_eq_of_len h58]
    have hdw : (List.replicate z (c.headD 0) ++
        (d0 :: Ds).map (fun d => c.getD d 0)).dropWhile
          (fun b => b == c.headD 0) =
        (d0 :: Ds).map (fun d => c.getD d 0) := by
      rw [dropWhile_replicate_append (fun b => b == c.headD 0)
          (beq_self_eq_true (c.headD 0)) z,
        List.map_cons,
        List.dropWhile_cons_of_neg (by simp only [hsym0]; exact Bool.false_ne_true)]
    rw [hdw]
    have hbound : ∀ d ∈ d0 :: Ds, d < c.length := by
      intro d hd
      rw [h58]
      apply Nat.digits_lt_base (by norm_num)
      exact List.mem_reverse.mp (hDrev ▸ hd)
    have hfold := b58decode_intLoop_map hnd (d0 :: Ds) hbound 0
    have hfval : (d0 :: Ds).foldl (fun a d => a * c.length + d) 0 =
        bytesToNat (s0 :: rest) := by
      rw [h58, ← hDrev, foldl_reverse_ofDigits]
      simp [Nat.ofDigits_digits]
    have hbytes : natToBytes256 (bytesToNat (s0 :: rest))
        (bytesToNat (s0 :: rest)) = s0 :: rest := by
      rw [natToBytes256_eq_digits _ _ (le_refl _), hd256, List.reverse_reverse]
    have hlen : (List.replicate z (c.headD 0) ++
        (d0 :: Ds).map (fun d => c.getD d 0)).length -
        ((d0 :: Ds).map (fun d => c.getD d 0)).length = z := by
      rw [List.length_append, List.length_replicate]
      omega
    simp only [b58decode_int, hfold, hfval, hbytes, hlen]

/-- Round-trip: decoding an encoder output returns the original byte string,
for any duplicate-free 58-symbol charset and byte-valued input. -/
theorem decode_of_encode {c x out : List Nat} (h58 : c.length = 58)
    (hnd : c.Nodup) (hx : ∀ b ∈ x, b < 256)
    (henc : b58encode x c = .ok out) : b58decode out c = .ok x := by
  rw [b58encode_eq_of_len h58] at henc
  obtain rfl := (Except.ok.inj henc).symm
  have hstb : ∀ b ∈ x.dropWhile (fun b => b == 0), b < 256 :=
    fun b hb => hx b (List.dropWhile_subset _ hb)
  have hhead : (x.dropWhile (fun b => b == 0)).head? ≠ some 0 := by
    intro hh
    cases hdw : x.dropWhile (fun b => b == 0) with
    | nil => rw [hdw] at hh; simp at hh
    | cons y ys =>
      rw [hdw] at hh
      have hy := dropWhile_head_not hdw
      simp at hh
      rw [hh] at hy
      simp at hy
  rw [decode_replicate_encode h58 hnd _ _ hstb hhead]
  rw [replicate_sub_append (fun b => b == 0) 0 (fun y hy => by simpa using hy) x]

/-- Evaluation of `b58decode` when the symbol fold succeeds. -/
theorem b58decode_eq_of_ok {c v : List Nat} {A : Nat} (h58 : c.length = 58)
    (hint : b58decode_int c (v.dropWhile (fun b => b == c.headD 0)) = .ok A) :
    b58decode v c = .ok
      (List.replicate
        (v.length - (v.dropWhile (fun b => b == c.headD 0)).length) 0 ++
       natToBytes256 A A) := by
  rw [b58decode_eq_of_len h58, hint]

/-- Looking up each symbol's index and reading the charset back is the
identity on symbol strings over the charset. -/
theorem map_index_round {c : List Nat} : ∀ (l : List Nat),
    (∀ ch ∈ l, ch ∈ c) →
    (l.map (fun ch => (charsetIndex c ch).getD 0)).map (fun d => c.getD d 0) = l
  | [], _ => rfl
  | ch :: l, hl => by
    rw [List.map_cons, List.map_cons,
      map_index_round l (fun a ha => hl a (List.mem_cons_of_mem ch ha))]
    obtain ⟨i, hi⟩ : ∃ i, charsetIndex c ch = some i := by
      cases h : charsetIndex c ch with
      | none =>
        exact absurd (hl ch (List.mem_cons_self ch l))
          (charsetIndex_eq_none_iff.mp h)
      | some i => exact ⟨i, rfl⟩
    rw [hi]
    simpa using charsetIndex_getD hi

/-- Looked-up indices are below the charset length. -/
theorem map_index_bound {c : List Nat} (l : List Nat)
    (hl : ∀ ch ∈ l, ch ∈ c) :
    ∀ d ∈ l.map (fun ch => (charsetIndex c ch).getD 0), d < c.length := by
  intro d hd
  rw [List.mem_map] at hd
  obtain ⟨ch, hch, rfl⟩ := hd
  obtain ⟨i, hi⟩ : ∃ i, charsetIndex c ch = some i := by
    cases h : charsetIndex c ch with
    | none => exact absurd (hl ch hch) (charsetIndex_eq_none_iff.mp h)
    | some i => exact ⟨i, rfl⟩
  rw [hi]
  simpa using charsetIndex_lt hi

/-- The index of a charset symbol different from the first symbol is
nonzero. -/
theorem charsetIndex_head_ne {c : List Nat} {ch : Nat} (hmem : ch ∈ c)
    (hne : ch ≠ c.headD 0) : (charsetIndex c ch).getD 0 ≠ 0 := by
  cases h : charsetIndex c ch with
  | none => exact absurd hmem (charsetIndex_eq_none_iff.mp h)
  | some i =>
    intro h0
    simp only [Option.getD_some] at h0
    subst h0
    exact hne (by rw [headD_eq_getD]; exact (charsetIndex_getD h).symm)

/-- Inverse round-trip: encoding a decoder output returns the original
symbol string, for any duplicate-free 58-symbol charset, when every symbol
of the input is drawn from the charset. -/
theorem encode_of_decode {c s out : List Nat} (h58 : c.length = 58)
    (hnd : c.Nodup) (hs : ∀ ch ∈ s, ch ∈ c)
    (hdec : b58decode s c = .ok out) : b58encode out c = .ok s := by
  have hc1 : 1 < c.length := by omega
  have hsub : ∀ ch ∈ s.dropWhile (fun b => b == c.headD 0), ch ∈ c :=
    fun ch hch => hs ch (List.dropWhile_subset _ hch)
  have hbound := map_index_bound (s.dropWhile (fun b => b == c.headD 0)) hsub
  have hmap := map_index_round (s.dropWhile (fun b => b == c.headD 0)) hsub
  have hint : b58decode_int c (s.dropWhile (fun b => b == c.headD 0)) =
      .ok (((s.dropWhile (fun b => b == c.headD 0)).map
          (fun ch => (charsetIndex c ch).getD 0)).foldl
        (fun a d => a * c.length + d) 0) := by
    conv_lhs => rw [← hmap]
    exact b58decode_intLoop_map hnd _ hbound 0
  rw [b58decode_eq_of_ok h58 hint] at hdec
  obtain rfl := Except.ok.inj hdec
  rw [h58] at hbound
  cases hsc : s.dropWhile (fun b => b == c.headD 0) with
  | nil =>
    simp only [List.map_nil, List.foldl_nil, List.length_nil, Nat.sub_zero]
    have h0 : natToBytes256 0 0 = [] := rfl
    rw [h0, List.append_nil, b58encode_eq_of_len h58]
    have hdw : (List.replicate s.length (0 : Nat)).dropWhile
        (fun b => b == 0) = [] := by
      have h := dropWhile_replicate_append (fun b => b == (0 : Nat))
        (beq_self_eq_true 0) s.length []
      rw [List.append_nil] at h
      exact h
    rw [hdw]
    have he : b58encode_int c (bytesToNat []) none = [] := rfl
    rw [he, List.append_nil]
    simp only [List.length_replicate, List.length_nil, Nat.sub_zero]
    have hfin := replicate_sub_append (fun b => b == c.headD 0) (c.headD 0)
      (fun y hy => by simpa using hy) s
    rw [hsc, List.append_nil, List.length_nil, Nat.sub_zero] at hfin
    rw [hfin]
  | cons ch0 strest =>
    rw [hsc] at hbound hmap
    have hch0mem : ch0 ∈ s.dropWhile (fun b => b == c.headD 0) := by
      rw [hsc]; exact List.mem_cons_self _ _
    have hch0 : ch0 ∈ c := hsub ch0 hch0mem
    have hch0ne : ch0 ≠ c.headD 0 := by
      have h := dropWhile_head_not hsc
      exact beq_eq_false_iff_ne.mp h
    have hi0ne : (charsetIndex c ch0).getD 0 ≠ 0 := charsetIndex_head_ne hch0 hch0ne
    have hA : ((ch0 :: strest).map (fun ch => (charsetIndex c ch).getD 0)).foldl
        (fun a d => a * c.length + d) 0 =
        Nat.ofDigits 58
          ((ch0 :: strest).map (fun ch => (charsetIndex c ch).getD 0)).reverse := by
      rw [h58]
      conv_lhs => rw [← List.reverse_reverse
        ((ch0 :: strest).map (fun ch => (charsetIndex c ch).getD 0))]
      rw [foldl_reverse_ofDigits]
      simp
    rw [hA]
    have hdigA : Nat.digits 58 (Nat.ofDigits 58
        ((ch0 :: strest).map (fun ch => (charsetIndex c ch).getD 0)).reverse) =
        ((ch0 :: strest).map (fun ch => (charsetIndex c ch).getD 0)).reverse := by
      apply Nat.digits_ofDigits 58 (by norm_num)
      · intro l hl
        exact hbound l (List.mem_reverse.mp hl)
      · intro hne
        rw [List.getLast_reverse hne]
        simpa using hi0ne
    have hAne : Nat.ofDigits 58
        ((ch0 :: strest).map (fun ch => (charsetIndex c ch).getD 0)).reverse ≠ 0 := by
      intro h0
      rw [h0] at hdigA
      simp at hdigA
    obtain ⟨b0, Bs, hB⟩ : ∃ b0 Bs, (Nat.digits 256 (Nat.ofDigits 58
        ((ch0 :: strest).map (fun ch => (charsetIndex c ch).getD 0)).reverse)).reverse =
        b0 :: Bs :=
      List.exists_cons_of_ne_nil
        (by simpa using Nat.digits_ne_nil_iff_ne_zero.mpr hAne)
    have hb0ne : b0 ≠ 0 := by
      have h1 : (Nat.digits 256 (Nat.ofDigits 58
          ((ch0 :: strest).map (fun ch => (charsetIndex c ch).getD 0)).reverse)).getLast? =
          some b0 := by
        rw [← List.head?_reverse, hB, List.head?_cons]
      have h2 := Nat.getLast_digit_ne_zero 256 hAne
      rw [List.getLast?_eq_getLast _
        (Nat.digits_ne_nil_iff_ne_zero.mpr hAne)] at h1
      injection h1 with h1
      rw [← h1]
      exact h2
    rw [natToBytes256_eq_digits _ _ (le_refl _), hB, b58encode_eq_of_len h58]
    have hdw : (List.replicate (s.length - (ch0 :: strest).length) (0 : Nat) ++
        b0 :: Bs).dropWhile (fun b => b == 0) = b0 :: Bs := by
      rw [dropWhile_replicate_append (fun b => b == (0 : Nat))
          (beq_self_eq_true 0),
        List.dropWhile_cons_of_neg (by simp [hb0ne])]
    rw [hdw]
    have hlen : (List.replicate (s.length - (ch0 :: strest).length) (0 : Nat) ++
        b0 :: Bs).length - (b0 :: Bs).length = s.length - (ch0 :: strest).length := by
      rw [List.length_append, List.length_replicate]
      omega
    rw [hlen]
    have hbn : bytesToNat (b0 :: Bs) = Nat.ofDigits 58
        ((ch0 :: strest).map (fun ch => (charsetIndex c ch).getD 0)).reverse := by
      rw [bytesToNat_eq, ← hB, List.reverse_reverse, Nat.ofDigits_digits]
    rw [hbn]
    have henc2 : b58encode_int c (Nat.ofDigits 58
        ((ch0 :: strest).map (fun ch => (charsetIndex c ch).getD 0)).reverse) none =
        ch0 :: strest := by
      rw [b58encode_int, b58encode_intLoop_eq_digits hc1 _ _ (le_refl _), h58,
        hdigA, List.reverse_reverse, hmap]
    rw [henc2]
    have hfin := replicate_sub_append (fun b => b == c.headD 0) (c.headD 0)
      (fun y hy => by simpa using hy) s
    rw [hsc] at hfin
    rw [hfin]

/-- `Except.bind` on a success value. -/
theorem except_bind_ok {α β : Type} (a : α) (f : α → Except B58Error β) :
    (Except.ok a : Except B58Error α).bind f = f a := rfl

/-- `b58decode_int` is the fold loop started at 0. -/
theorem b58decode_int_eq (charset val : List Nat) :
    b58decode_int charset val = b58decode_intLoop charset val 0 := rfl

/-- The numeric part of an encoder output never starts with the zero
symbol, for an input with no leading zero byte. -/
theorem encode_int_head_ne {c : List Nat} (h58 : c.length = 58) (hnd : c.Nodup)
    (str : List Nat) (hstb : ∀ b ∈ str, b < 256) (hhead : str.head? ≠ some 0) :
    (b58encode_int c (bytesToNat str) none).head? ≠ some (c.headD 0) := by
  have hc1 : 1 < c.length := by omega
  have hcpos : 0 < c.length := by omega
  rcases str with _ | ⟨s0, rest⟩
  · intro h
    simp [b58encode_int, bytesToNat, bytesToNatLoop, b58encode_intLoop] at h
  · have hs0 : s0 ≠ 0 := by simpa using hhead
    have hacc := bytesToNat_eq (s0 :: rest)
    have hd256 : Nat.digits 256 (bytesToNat (s0 :: rest)) = (s0 :: rest).reverse := by
      rw [hacc]
      apply Nat.digits_ofDigits 256 (by norm_num)
      · intro l hl
        exact hstb l (List.mem_reverse.mp hl)
      · intro hne
        rw [List.getLast_reverse hne]
        simpa using hs0
    have haccne : bytesToNat (s0 :: rest) ≠ 0 := by
      intro h0
      rw [h0] at hd256
      simp at hd256
    have hS : b58encode_int c (bytesToNat (s0 :: rest)) none =
        (Nat.digits 58 (bytesToNat (s0 :: rest))).reverse.map
          (fun d => c.getD d 0) := by
      rw [b58encode_int, b58encode_intLoop_eq_digits hc1 _ _ (le_refl _), h58]
    obtain ⟨d0, Ds, hDrev⟩ : ∃ d0 Ds,
        (Nat.digits 58 (bytesToNat (s0 :: rest))).reverse = d0 :: Ds :=
      List.exists_cons_of_ne_nil
        (by simpa using Nat.digits_ne_nil_iff_ne_zero.mpr haccne)
    have hd0mem : d0 ∈ Nat.digits 58 (bytesToNat (s0 :: rest)) := by
      rw [← List.mem_reverse, hDrev]
      exact List.mem_cons_self _ _
    have hd0lt : d0 < 58 := Nat.digits_lt_base (by norm_num) hd0mem
    have hd0ne : d0 ≠ 0 := by
      have h1 : (Nat.digits 58 (bytesToNat (s0 :: rest))).getLast? = some d0 := by
        rw [← List.head?_reverse, hDrev, List.head?_cons]
      have h2 := Nat.getLast_digit_ne_zero 58 haccne
      rw [List.getLast?_eq_getLast _
        (Nat.digits_ne_nil_iff_ne_zero.mpr haccne)] at h1
      injection h1 with h1
      rw [← h1]
      exact h2
    rw [hS, hDrev, List.map_cons, List.head?_cons]
    intro hcontra
    injection hcontra with hcontra
    rw [headD_eq_getD] at hcontra
    exact getD_ne_getD_zero hnd (h58 ▸ hd0lt) hd0ne hcpos hcontra

/-! ## Fidelity checks against the repository's test vectors -/

/-- The embedded `sha256` reproduces the FIPS 180-4 digest of the empty
message. -/
theorem sha256_empty_vector : sha256 [] =
    [227, 176, 196, 66, 152, 252, 28, 20, 154, 251, 244, 200,
     153, 111, 185, 36, 39, 174, 65, 228, 100, 155, 147, 76,
     164, 149, 153, 27, 120, 82, 184, 85] := by decide

/-- The embedded `b58encode` reproduces the repository's first test vector:
the 25 raw bytes encode to `b'1BoatSLRHtKNngkdXEeobR76b53LETtpyT'`. -/
theorem b58encode_test_vector :
    b58encode [0, 118, 128, 173, 236, 142, 171, 202, 186, 198,
        118, 190, 158, 131, 133, 74, 222, 11, 210, 44, 219,
        11, 185, 96, 222] DEFAULT_CHARSET =
      .ok [49, 66, 111, 97, 116, 83, 76, 82, 72, 116, 75, 78, 110, 103, 107,
        100, 88, 69, 101, 111, 98, 82, 55, 54, 98, 53, 51, 76, 69, 84, 116,
        112, 121, 84] := rfl

/-! ## Claim theorems -/

/-- Claim C3: for every version in `[0,255]` and content byte sequence,
`b58check_encode` renders the version as exactly the single byte equal to the
version and returns the Base58 encoding of
`version_byte ++ content ++ checksum`, where `checksum` is the first 4 bytes
of `SHA256(SHA256(version_byte ++ content))`. -/
theorem claim_C3_check_encode_layout (content : List Nat) (v : Nat)
    (hv : v < 256) (charset : List Nat) :
    b58check_encode content v charset =
      b58encode ([v] ++ content ++
        (sha256 (sha256 ([v] ++ content))).take 4) charset := by
  simp only [b58check_encode, versionBytes_small v hv]

/-- Witness for C3 at `content = [1, 2]`, `v = 7`. -/
theorem claim_C3_check_encode_layout_witness :
    b58check_encode [1, 2] 7 DEFAULT_CHARSET =
      b58encode ([7] ++ [1, 2] ++
        (sha256 (sha256 ([7] ++ [1, 2]))).take 4) DEFAULT_CHARSET :=
  claim_C3_check_encode_layout [1, 2] 7 (by decide) DEFAULT_CHARSET

/-- Claim C5: for every alphabet whose length is not 58, each of the five
public entry points fails with the configuration error, for every input. -/
theorem claim_C5_alphabet_rejection (charset : List Nat)
    (hbad : charset.length ≠ 58) (val : List Nat) (v : Nat) :
    b58encode val charset = .error .configError ∧
    b58decode val charset = .error .configError ∧
    b58check_encode val v charset = .error .configError ∧
    b58check_address_is_valid val charset = .error .configError ∧
    b58check_decode val charset = .error .configError := by
  have he : b58encode val charset = .error .configError := by
    rw [b58encode, if_neg hbad]
  have hd : b58decode val charset = .error .configError := by
    rw [b58decode, if_neg hbad]
  have hce : b58check_encode val v charset = .error .configError := by
    rw [b58check_encode]
    cases versionBytes v with
    | none => rfl
    | some vb =>
      show b58encode (vb ++ val ++ (sha256 (sha256 (vb ++ val))).take 4) charset
          = .error .configError
      rw [b58encode, if_neg hbad]
  have hv1 : b58check_address_is_valid val charset = .error .configError := by
    rw [b58check_address_is_valid, hd]
  have hv2 : b58check_decode val charset = .error .configError := by
    rw [b58check_decode, hv1]
  exact ⟨he, hd, hce, hv1, hv2⟩

/-- Witness for C5 at the empty alphabet, empty input, version 0. -/
theorem claim_C5_alphabet_rejection_witness :
    b58encode [] [] = .error .configError ∧
    b58decode [] [] = .error .configError ∧
    b58check_encode [] 0 [] = .error .configError ∧
    b58check_address_is_valid [] [] = .error .configError ∧
    b58check_decode [] [] = .error .configError :=
  claim_C5_alphabet_rejection [] (by decide) [] 0

/-- Claim C6: decoding input that, after stripping leading `alphabet[0]`
symbols, contains a byte outside the alphabet fails with `InvalidSymbol`. -/
theorem claim_C6_invalid_symbol (charset val : List Nat)
    (h58 : charset.length = 58)
    (hbad : ∃ ch ∈ val.dropWhile (fun b => b == charset.headD 0),
      ch ∉ charset) :
    b58decode val charset = .error .invalidSymbol := by
  rw [b58decode_eq_of_len h58, b58decode_int_eq,
    b58decode_intLoop_err hbad 0]

/-- Witness for C6 at the byte `'0' = 48`, which is not a Base58 symbol. -/
theorem claim_C6_invalid_symbol_witness :
    b58decode [48] DEFAULT_CHARSET = .error .invalidSymbol :=
  claim_C6_invalid_symbol DEFAULT_CHARSET [48] (by decide) (by decide)

/-- Claim C7: an address whose Base58 decoding succeeds with fewer than 4 raw
bytes is reported invalid (no error raised). -/
theorem claim_C7_short_raw_invalid (charset val raw : List Nat)
    (hdec : b58decode val charset = .ok raw) (hlen : raw.length < 4) :
    b58check_address_is_valid val charset = .ok false := by
  have h2 : ((sha256 (sha256 (raw.take (raw.length - 4)))).take 4).length = 4 := by
    rw [List.length_take, sha256_length]
    omega
  have hne : raw.drop (raw.length - 4) ≠
      (sha256 (sha256 (raw.take (raw.length - 4)))).take 4 := by
    intro hcontra
    have h1 : (raw.drop (raw.length - 4)).length = raw.length := by
      have h0 : raw.length - 4 = 0 := by omega
      rw [h0, List.drop_zero]
    rw [hcontra, h2] at h1
    omega
  rw [b58check_address_is_valid, hdec]
  show (if raw.drop (raw.length - 4) =
      (sha256 (sha256 (raw.take (raw.length - 4)))).take 4 then
      (Except.ok true : Except B58Error Bool) else .ok false) = .ok false
  rw [if_neg hne]

/-- Witness for C7 at the empty address, which decodes to 0 raw bytes. -/
theorem claim_C7_short_raw_invalid_witness :
    b58check_address_is_valid [] DEFAULT_CHARSET = .ok false :=
  claim_C7_short_raw_invalid DEFAULT_CHARSET [] [] rfl (by decide)

/-- Claim C9 counterexample: contrary to the claim, the public `b58encode`
of the empty byte sequence is the empty sequence (not one `alphabet[0]`
symbol, byte 49), and `b58decode` of the empty input is the empty sequence
(not the byte `0`). -/
theorem claim_C9_empty_counterexample :
    b58encode [] DEFAULT_CHARSET = .ok [] ∧
    b58decode [] DEFAULT_CHARSET = .ok [] ∧
    (Except.ok [] : Except B58Error (List Nat)) ≠ .ok [49] ∧
    (Except.ok [] : Except B58Error (List Nat)) ≠ .ok [0] := by
  refine ⟨rfl, rfl, ?_, ?_⟩ <;>
    · intro h
      exact absurd (Except.ok.inj h) (by decide)

/-- Claim C9 (amended): `b58encode` of the empty byte sequence returns the
empty byte sequence, and `b58decode` of the empty encoded input returns the
empty byte sequence (the encoder's integer helper is called with
`default=False`, so no zero symbol is emitted, and the decoder emits no
byte for the accumulator 0). -/
theorem claim_C9_empty_behaviour :
    b58encode [] DEFAULT_CHARSET = .ok [] ∧
    b58decode [] DEFAULT_CHARSET = .ok [] :=
  ⟨rfl, rfl⟩

/-- Claim C1: for every byte sequence `x` and every valid alphabet of 58
distinct symbols, `b58decode (b58encode x alphabet) alphabet = x` when both
use the same alphabet. -/
theorem claim_C1_round_trip (charset x : List Nat) (h58 : charset.length = 58)
    (hnd : charset.Nodup) (hx : ∀ b ∈ x, b < 256) :
    (b58encode x charset).bind (fun e => b58decode e charset) = .ok x := by
  rw [b58encode_eq_of_len h58, except_bind_ok]
  exact decode_of_encode h58 hnd hx (b58encode_eq_of_len h58 x)

/-- Witness for C1 at a mixed input with leading zero bytes. -/
theorem claim_C1_round_trip_witness :
    (b58encode [0, 0, 7, 200] DEFAULT_CHARSET).bind
      (fun e => b58decode e DEFAULT_CHARSET) = .ok [0, 0, 7, 200] :=
  claim_C1_round_trip DEFAULT_CHARSET [0, 0, 7, 200] rfl (by decide) (by decide)

/-- Claim C4: encoding two zero bytes followed by `x` (not starting with a
zero byte) yields exactly two leading copies of `alphabet[0]` (position 2, if
present, holds a different symbol), and decoding recovers both zero bytes. -/
theorem claim_C4_leading_zeros (charset x : List Nat)
    (h58 : charset.length = 58) (hnd : charset.Nodup)
    (hx : ∀ b ∈ x, b < 256) (hhead : x.head? ≠ some 0) :
    ∃ out, b58encode (0 :: 0 :: x) charset = .ok out ∧
      out.take 2 = [charset.headD 0, charset.headD 0] ∧
      (out.drop 2).head? ≠ some (charset.headD 0) ∧
      b58decode out charset = .ok (0 :: 0 :: x) := by
  have hx2 : ∀ b ∈ 0 :: 0 :: x, b < 256 := by
    intro b hb
    rcases List.mem_cons.mp hb with rfl | hb
    · omega
    rcases List.mem_cons.mp hb with rfl | hb
    · omega
    · exact hx b hb
  have hdwx : x.dropWhile (fun b => b == 0) = x := by
    cases hx0 : x with
    | nil => rfl
    | cons y ys =>
      have hy : y ≠ 0 := by rw [hx0] at hhead; simpa using hhead
      rw [List.dropWhile_cons_of_neg (by simp [hy])]
  have hdw : (0 :: 0 :: x).dropWhile (fun b => b == 0) = x := by
    rw [List.dropWhile_cons_of_pos rfl, List.dropWhile_cons_of_pos rfl, hdwx]
  have henc := b58encode_eq_of_len h58 (0 :: 0 :: x)
  rw [hdw] at henc
  have hl2 : (0 :: 0 :: x).length - x.length = 2 := by
    simp only [List.length_cons]
    omega
  rw [hl2] at henc
  refine ⟨_, henc, rfl, ?_, decode_of_encode h58 hnd hx2 henc⟩
  exact encode_int_head_ne h58 hnd x hx hhead

/-- Witness for C4 at `x = [7]`. -/
theorem claim_C4_leading_zeros_witness :
    ∃ out, b58encode (0 :: 0 :: [7]) DEFAULT_CHARSET = .ok out ∧
      out.take 2 = [DEFAULT_CHARSET.headD 0, DEFAULT_CHARSET.headD 0] ∧
      (out.drop 2).head? ≠ some (DEFAULT_CHARSET.headD 0) ∧
      b58decode out DEFAULT_CHARSET = .ok (0 :: 0 :: [7]) :=
  claim_C4_leading_zeros DEFAULT_CHARSET [7] rfl (by decide) (by decide)
    (by decide)

/-- A decoded address of the form `body ++ checksum` with a matching
double-SHA-256 checksum is reported valid. -/
theorem check_valid_of_parts {c : List Nat} {E body chk : List Nat}
    (hdecE : b58decode E c = .ok (body ++ chk))
    (hchk : chk = (sha256 (sha256 body)).take 4) :
    b58check_address_is_valid E c = .ok true := by
  have hchklen : chk.length = 4 := by
    rw [hchk, List.length_take, sha256_length]
    omega
  have hlen : (body ++ chk).length - 4 = body.length := by
    rw [List.length_append, hchklen]
    omega
  rw [b58check_address_is_valid, hdecE]
  show (if (body ++ chk).drop ((body ++ chk).length - 4) =
      (sha256 (sha256 ((body ++ chk).take ((body ++ chk).length - 4)))).take 4
      then (Except.ok true : Except B58Error Bool) else .ok false) = .ok true
  rw [hlen, List.drop_left, List.take_left, ← hchk]
  simp

/-- A decoded address of the form `body ++ checksum` with a matching
checksum decodes through `b58check_decode` to `body.drop 1`. -/
theorem check_decode_of_parts {c : List Nat} {E body chk : List Nat}
    (hdecE : b58decode E c = .ok (body ++ chk))
    (hchk : chk = (sha256 (sha256 body)).take 4) :
    b58check_decode E c = .ok (body.drop 1) := by
  have hvalid := check_valid_of_parts hdecE hchk
  have hchklen : chk.length = 4 := by
    rw [hchk, List.length_take, sha256_length]
    omega
  have hlen : (body ++ chk).length - 4 = body.length := by
    rw [List.length_append, hchklen]
    omega
  rw [b58check_decode, hvalid, hdecE]
  show Except.ok (((body ++ chk).take ((body ++ chk).length - 4)).drop 1) =
    (Except.ok (body.drop 1) : Except B58Error (List Nat))
  rw [hlen, List.take_left]

/-- Claim C2: for every content byte sequence and version in `[0,255]`,
the address produced by `b58check_encode` is accepted by
`b58check_address_is_valid`, and `b58check_decode` of that address returns
exactly the original content. -/
theorem claim_C2_check_round_trip (content : List Nat) (v : Nat)
    (hv : v < 256) (hc : ∀ b ∈ content, b < 256) :
    (b58check_encode content v DEFAULT_CHARSET).bind
        (fun a => b58check_address_is_valid a DEFAULT_CHARSET) = .ok true ∧
    (b58check_encode content v DEFAULT_CHARSET).bind
        (fun a => b58check_decode a DEFAULT_CHARSET) = .ok content := by
  have h58 : DEFAULT_CHARSET.length = 58 := rfl
  have hnd : DEFAULT_CHARSET.Nodup := by decide
  have hvb := versionBytes_small v hv
  have hpb : ∀ b ∈ [v] ++ content ++
      (sha256 (sha256 ([v] ++ content))).take 4, b < 256 := by
    intro b hb
    rcases List.mem_append.mp hb with hb | hb
    · rcases List.mem_append.mp hb with hb | hb
      · rw [List.mem_singleton] at hb
        omega
      · exact hc b hb
    · exact sha256_lt b (List.mem_of_mem_take hb)
  obtain ⟨E, hE⟩ : ∃ E, b58encode ([v] ++ content ++
      (sha256 (sha256 ([v] ++ content))).take 4) DEFAULT_CHARSET = .ok E :=
    ⟨_, b58encode_eq_of_len h58 _⟩
  have hdecE : b58decode E DEFAULT_CHARSET =
      .ok (([v] ++ content) ++ (sha256 (sha256 ([v] ++ content))).take 4) :=
    decode_of_encode h58 hnd hpb hE
  have hvalid := check_valid_of_parts hdecE rfl
  have hdecC := check_decode_of_parts hdecE rfl
  have hdrop : ([v] ++ content).drop 1 = content := rfl
  rw [hdrop] at hdecC
  constructor
  · simp only [b58check_encode, hvb]
    rw [hE, except_bind_ok]
    exact hvalid
  · simp only [b58check_encode, hvb]
    rw [hE, except_bind_ok]
    exact hdecC

/-- Witness for C2 at `content = [95]`, `v = 0`. -/
theorem claim_C2_check_round_trip_witness :
    (b58check_encode [95] 0 DEFAULT_CHARSET).bind
        (fun a => b58check_address_is_valid a DEFAULT_CHARSET) = .ok true ∧
    (b58check_encode [95] 0 DEFAULT_CHARSET).bind
        (fun a => b58check_decode a DEFAULT_CHARSET) = .ok [95] :=
  claim_C2_check_round_trip [95] 0 (by decide) (by decide)

/-- Claim C8: for every address whose Base58 decoding succeeds,
`b58check_decode` fails with `IncorrectAddress` exactly when
`b58check_address_is_valid` is false; otherwise it returns the decoding with
the first byte and the last 4 bytes removed. -/
theorem claim_C8_decode_contract (charset val raw : List Nat)
    (hdec : b58decode val charset = .ok raw) :
    (b58check_decode val charset = .error .incorrectAddress ↔
      b58check_address_is_valid val charset = .ok false) ∧
    (b58check_address_is_valid val charset = .ok true →
      b58check_decode val charset = .ok ((raw.take (raw.length - 4)).drop 1)) := by
  by_cases hchk : raw.drop (raw.length - 4) =
      (sha256 (sha256 (raw.take (raw.length - 4)))).take 4
  · have hv : b58check_address_is_valid val charset = .ok true := by
      rw [b58check_address_is_valid, hdec]
      show (if raw.drop (raw.length - 4) =
          (sha256 (sha256 (raw.take (raw.length - 4)))).take 4 then
          (Except.ok true : Except B58Error Bool) else .ok false) = .ok true
      rw [if_pos hchk]
    have hd : b58check_decode val charset =
        .ok ((raw.take (raw.length - 4)).drop 1) := by
      rw [b58check_decode, hv, hdec]
    refine ⟨⟨fun h => ?_, fun h => ?_⟩, fun _ => hd⟩
    · rw [hd] at h
      exact Except.noConfusion h
    · rw [hv] at h
      exact absurd (Except.ok.inj h) (by decide)
  · have hv : b58check_address_is_valid val charset = .ok false := by
      rw [b58check_address_is_valid, hdec]
      show (if raw.drop (raw.length - 4) =
          (sha256 (sha256 (raw.take (raw.length - 4)))).take 4 then
          (Except.ok true : Except B58Error Bool) else .ok false) = .ok false
      rw [if_neg hchk]
    have hd : b58check_decode val charset = .error .incorrectAddress := by
      rw [b58check_decode, hv]
    refine ⟨⟨fun _ => hv, fun _ => hd⟩, fun h => ?_⟩
    rw [hv] at h
    exact absurd (Except.ok.inj h) (by decide)

/-- Witness for C8 at the empty address (which decodes to no bytes). -/
theorem claim_C8_decode_contract_witness :
    (b58check_decode [] DEFAULT_CHARSET = .error .incorrectAddress ↔
      b58check_address_is_valid [] DEFAULT_CHARSET = .ok false) ∧
    (b58check_address_is_valid [] DEFAULT_CHARSET = .ok true →
      b58check_decode [] DEFAULT_CHARSET =
        .ok ((([] : List Nat).take (([] : List Nat).length - 4)).drop 1)) :=
  claim_C8_decode_contract DEFAULT_CHARSET [] [] rfl

/-- Claim C10: every string over the default alphabet is a canonical
encoding: `b58encode (b58decode s) = s`. -/
theorem claim_C10_inverse_round_trip (s : List Nat)
    (hs : ∀ ch ∈ s, ch ∈ DEFAULT_CHARSET) :
    (b58decode s DEFAULT_CHARSET).bind
      (fun d => b58encode d DEFAULT_CHARSET) = .ok s := by
  have h58 : DEFAULT_CHARSET.length = 58 := rfl
  have hnd : DEFAULT_CHARSET.Nodup := by decide
  have hsub : ∀ ch ∈ s.dropWhile (fun b => b == DEFAULT_CHARSET.headD 0),
      ch ∈ DEFAULT_CHARSET :=
    fun ch hch => hs ch (List.dropWhile_subset _ hch)
  have hint : b58decode_int DEFAULT_CHARSET
      (s.dropWhile (fun b => b == DEFAULT_CHARSET.headD 0)) =
      .ok (((s.dropWhile (fun b => b == DEFAULT_CHARSET.headD 0)).map
          (fun ch => (charsetIndex DEFAULT_CHARSET ch).getD 0)).foldl
        (fun a d => a * DEFAULT_CHARSET.length + d) 0) := by
    conv_lhs => rw [← map_index_round _ hsub]
    exact b58decode_intLoop_map hnd _ (map_index_bound _ hsub) 0
  rw [b58decode_eq_of_ok h58 hint, except_bind_ok]
  exact encode_of_decode h58 hnd hs (b58decode_eq_of_ok h58 hint)

/-- Witness for C10 at the symbol string `"12"`. -/
theorem claim_C10_inverse_round_trip_witness :
    (b58decode [49, 50] DEFAULT_CHARSET).bind
      (fun d => b58encode d DEFAULT_CHARSET) = .ok [49, 50] :=
  claim_C10_inverse_round_trip [49, 50] (by decide)

end Base58Check
